import Mathlib

/-!
Verification of the Pomodoro CLI timer (pomodoro.py).

The source is a single Python file built around a class with a JSON
backing file, a blocking countdown, and pure views over the in-memory
session list.  The definitions below embed the data model and the
operations of that file; line numbers in the doc comments refer to
pomodoro.py.
-/

namespace Pomodoro

/-- Embeds one session record as built at pomodoro.py lines 191-197: a JSON
object with fields task, date, time, duration (in minutes) and completed. -/
structure Session where
  task : String
  date : String
  time : String
  duration : Nat
  completed : Bool
deriving DecidableEq

/-- Embeds the state of the backing file pomodoro_data.json: absent, present
but unparsable by the JSON parser, or parsed content (a list of records). -/
inductive FileState where
  | absent
  | corrupt
  | content (sessions : List Session)
deriving DecidableEq

/-- Embeds PomodoroTimer.load_sessions (lines 40-48): if the file does not
exist, return an empty list; if reading or parsing raises, the bare except
returns an empty list; otherwise return the parsed content verbatim (the
source performs no validation of the parsed records). -/
def load_sessions : FileState → List Session
  | .absent => []
  | .corrupt => []
  | .content ss => ss

/-- Embeds PomodoroTimer.save_sessions (lines 50-53): json.dump of the whole
in-memory list, overwriting the file.  The argument writeOk models whether
the OS write completes; the source has no try/except here, so a failed write
raises an IOError that the function does not catch. -/
def save_sessions (writeOk : Bool) (sessions : List Session) : Except String FileState :=
  if writeOk then .ok (.content sessions) else .error "IOError"

/-- Embeds self.work_duration (line 34): 25 minutes in seconds. -/
def work_duration : Nat := 25 * 60

/-- Embeds self.break_duration (line 35): 5 minutes in seconds. -/
def break_duration : Nat := 5 * 60

/-- Embeds PomodoroTimer.countdown (lines 150-169) at the level the claims
need: the loop sleeps until the end time passes and then returns True; there
is no interruption path, so it always completes. -/
def countdown (_duration : Nat) : Bool := true

/-- Embeds a wall-clock instant as observed through datetime.now().strftime:
the date in the form YYYY-MM-DD and the time in the form HH:MM:SS. -/
structure Instant where
  date : String
  time : String
deriving DecidableEq

/-- Embeds the Python str.lower() call at line 204: lowercase every
character of the answer. -/
def pyLower (s : String) : String := String.mk (s.data.map Char.toLower)

/-- Embeds the record literal at lines 191-197.  The source calls
datetime.now() twice, once for the date field and once for the time field;
clock n is the instant returned by the n-th call. -/
def recordOf (task : String) (clock : Nat → Instant) : Session :=
  { task := task
    date := (clock 0).date
    time := (clock 1).time
    duration := work_duration / 60
    completed := true }

/-- Outcome of a completed start_session run: the in-memory session list, the
backing-file state, and whether the break countdown was performed. -/
structure StartResult where
  sessions : List Session
  file : FileState
  breakTaken : Bool
deriving DecidableEq

/-- Embeds PomodoroTimer.start_session (lines 171-208).  The work countdown
runs; on completion the record is appended to self.sessions and
save_sessions is called (an exception there propagates, embedded as the
error branch); then the break prompt is read and the break countdown runs
only when the lowercased answer equals the letter y. -/
def start_session (task : String) (clock : Nat → Instant) (breakAnswer : String)
    (writeOk : Bool) (sessions : List Session) (fs : FileState) :
    Except String StartResult :=
  if countdown work_duration then
    let s := recordOf task clock
    let sessions' := sessions ++ [s]
    match save_sessions writeOk sessions' with
    | .error e => .error e
    | .ok fs' =>
      if pyLower breakAnswer = "y" then
        .ok { sessions := sessions', file := fs', breakTaken := countdown break_duration }
      else
        .ok { sessions := sessions', file := fs', breakTaken := false }
  else
    .ok { sessions := sessions, file := fs, breakTaken := false }

/-- Embeds the view computed by PomodoroTimer.show_today (line 213): the
records whose date field equals today's date, in original order. -/
def show_today (sessions : List Session) (today : String) : List Session :=
  sessions.filter (fun s => s.date == today)

/-- Embeds the Python slice sessions[-limit:] at line 247, for an arbitrary
integer limit: for a positive limit, the last limit elements; for a
non-positive limit, the elements from index (-limit) onward. -/
def sliceFromEnd (sessions : List Session) (limit : Int) : List Session :=
  if 0 < limit then sessions.drop (sessions.length - limit.toNat)
  else sessions.drop (-limit).toNat

/-- Embeds the view computed by PomodoroTimer.show_history (lines 239-247):
an empty log displays nothing; otherwise the slice sessions[-limit:] is
displayed reversed, most recent first. -/
def show_history (sessions : List Session) (limit : Int) : List Session :=
  if sessions.isEmpty then [] else (sliceFromEnd sessions limit).reverse

/-- A fixed clock used for concrete evaluations: every call returns the same
instant. -/
def cClock : Nat → Instant := fun _ => ⟨"2024-01-01", "09:00:00"⟩

/-- A clock crossing midnight: the first call falls on 2024-01-01 just before
midnight, every later call on 2024-01-02 just after. -/
def midnightClock : Nat → Instant := fun n =>
  if n = 0 then ⟨"2024-01-01", "23:59:59"⟩ else ⟨"2024-01-02", "00:00:00"⟩

/-- Helper: a successful start_session run appends exactly the record built
from the clock, and the file now holds the appended list. -/
theorem start_session_ok_shape {task : String} {clock : Nat → Instant}
    {ans : String} {w : Bool} {l : List Session} {fs : FileState} {r : StartResult}
    (h : start_session task clock ans w l fs = .ok r) :
    r.sessions = l ++ [recordOf task clock] ∧
      r.file = .content (l ++ [recordOf task clock]) := by
  cases w with
  | false =>
    simp only [start_session, countdown, save_sessions, if_true, if_false,
      Bool.false_eq_true, reduceIte] at h
    cases h
  | true =>
    simp only [start_session, countdown, save_sessions, if_true, reduceIte] at h
    by_cases hb : pyLower ans = "y"
    · rw [if_pos hb] at h
      cases h
      exact ⟨rfl, rfl⟩
    · rw [if_neg hb] at h
      cases h
      exact ⟨rfl, rfl⟩

/-- C2: load_sessions never raises (it is a total function on every file
state), returns an empty list when the backing file is absent, and returns
an empty list when the file is present but unparsable. -/
theorem load_sessions_never_fails :
    (∀ fs : FileState, ∃ l : List Session, load_sessions fs = l) ∧
      load_sessions .absent = [] ∧ load_sessions .corrupt = [] :=
  ⟨fun fs => ⟨load_sessions fs, rfl⟩, rfl, rfl⟩

/-- Counterexample to C3: when the write fails, the run does not finish with
a handled, graceful result; start_session (and the program, which has no
handler anywhere above it) ends in the uncaught IOError. -/
theorem save_failure_not_handled :
    ¬ ∃ r : StartResult,
      start_session "t" cClock "n" false [] .absent = .ok r := by
  rintro ⟨r, h⟩
  rw [show start_session "t" cClock "n" false [] .absent
      = .error "IOError" from rfl] at h
  cases h

/-- C3 amended: a failed write during append surfaces as an IOError-kind
failure (never silently swallowed) and the record is not committed to the
backing store, but no caller catches it: the error propagates out of
start_session as an uncaught crash. -/
theorem save_failure_raises (task : String) (clock : Nat → Instant)
    (ans : String) (l : List Session) (fs : FileState) :
    start_session task clock ans false l fs = .error "IOError" := rfl

/-- Counterexample to C5: with the clock crossing midnight, the record's
date and time fields do not both come from any single instant the clock
produced: the date is from the first call, the time from the second. -/
theorem recordOf_not_single_instant :
    ¬ ∃ k : Nat, (recordOf "t" midnightClock).date = (midnightClock k).date ∧
      (recordOf "t" midnightClock).time = (midnightClock k).time := by
  rintro ⟨k, hd, ht⟩
  cases k with
  | zero => exact absurd ht (by decide)
  | succ k =>
    have hk : (midnightClock (k + 1)).date = "2024-01-02" := rfl
    rw [hk] at hd
    exact absurd hd (by decide)

/-- C5 amended: the date field comes from the first clock reading at record
creation and the time field from a second, separate reading; they describe
one instant only when the two readings coincide. -/
theorem recordOf_two_clock_reads (task : String) (clock : Nat → Instant) :
    (recordOf task clock).date = (clock 0).date ∧
      (recordOf task clock).time = (clock 1).time ∧
      (recordOf task clock).task = task ∧
      (recordOf task clock).completed = true :=
  ⟨rfl, rfl, rfl, rfl⟩

/-- C1: a start_session run whose work countdown elapses and whose write
succeeds appends exactly one record, with completed true and duration the
configured work minutes (25); when the break prompt is answered with
anything other than the affirmative letter y, the session list afterwards
is exactly the appended one (its size grew by exactly one and never changes
again in the run) and no break countdown is performed. -/
theorem start_session_appends_one (task : String) (clock : Nat → Instant)
    (ans : String) (l : List Session) (fs : FileState)
    (h : pyLower ans ≠ "y") :
    ∃ r : StartResult, start_session task clock ans true l fs = .ok r ∧
      r.sessions = l ++ [recordOf task clock] ∧
      r.sessions.length = l.length + 1 ∧
      (recordOf task clock).completed = true ∧
      (recordOf task clock).duration = 25 ∧
      r.breakTaken = false := by
  refine ⟨⟨l ++ [recordOf task clock], .content (l ++ [recordOf task clock]), false⟩,
    ?_, rfl, by simp, rfl, rfl, rfl⟩
  simp only [start_session, countdown, save_sessions, reduceIte, if_true]
  rw [if_neg h]

/-- Witness for C1 at a concrete input: task t, a fixed clock, answer n,
empty initial log. -/
theorem start_session_appends_one_witness :
    (pyLower "n" ≠ "y") ∧
      (∃ r : StartResult, start_session "t" cClock "n" true [] .absent = .ok r ∧
        r.sessions = ([] : List Session) ++ [recordOf "t" cClock] ∧
        r.sessions.length = ([] : List Session).length + 1 ∧
        (recordOf "t" cClock).completed = true ∧
        (recordOf "t" cClock).duration = 25 ∧
        r.breakTaken = false) :=
  ⟨by decide, start_session_appends_one "t" cClock "n" [] .absent (by decide)⟩

/-- C9: appending a record and persisting it, then loading the resulting
file in a fresh instance, reproduces exactly the in-memory sequence,
field for field: the original records followed by the new one. -/
theorem append_load_roundtrip (task : String) (clock : Nat → Instant)
    (ans : String) (l : List Session) (fs : FileState) (r : StartResult)
    (h : start_session task clock ans true l fs = .ok r) :
    load_sessions r.file = r.sessions ∧
      load_sessions r.file = l ++ [recordOf task clock] := by
  obtain ⟨hs, hf⟩ := start_session_ok_shape h
  rw [hf, hs]
  exact ⟨rfl, rfl⟩

/-- Witness for C9 at a concrete input, taking the break this time. -/
theorem append_load_roundtrip_witness :
    (start_session "t" cClock "y" true [] .absent
        = .ok ⟨[recordOf "t" cClock], .content [recordOf "t" cClock], true⟩) ∧
      (load_sessions (FileState.content [recordOf "t" cClock])
          = [recordOf "t" cClock] ∧
        load_sessions (FileState.content [recordOf "t" cClock])
          = ([] : List Session) ++ [recordOf "t" cClock]) :=
  ⟨rfl,
    append_load_roundtrip "t" cClock "y" [] .absent
      ⟨[recordOf "t" cClock], .content [recordOf "t" cClock], true⟩ rfl⟩

/-- C7: for a positive limit, the history view is the last limit records in
log order reversed, most recent first; equivalently, the reversal of the
whole log truncated to limit entries, so a log shorter than limit is shown
whole, reversed. -/
theorem show_history_last_reversed (l : List Session) (n : Int) (h : 0 < n) :
    show_history l n = l.reverse.take n.toNat := by
  by_cases he : l.isEmpty
  · rw [List.isEmpty_iff] at he
    subst he
    simp [show_history]
  · rw [show_history, if_neg (by simp [he]), sliceFromEnd, if_pos h,
      List.reverse_drop]
    rcases le_or_lt n.toNat l.length with hn | hn
    · congr 1
      omega
    · rw [List.take_of_length_le (by simp; omega),
        List.take_of_length_le (by simp; omega)]

/-- A concrete record maker for witnesses: sessions distinguished by their
duration field. -/
def mkS (i : Nat) : Session :=
  { task := "t", date := "2024-01-01", time := "09:00:00",
    duration := i, completed := true }

/-- Fifteen concrete sessions, numbered 1 to 15 in log order. -/
def hist15 : List Session := (List.range 15).map (fun i => mkS (i + 1))

/-- Three concrete sessions, numbered 1 to 3 in log order. -/
def hist3 : List Session := [mkS 1, mkS 2, mkS 3]

/-- Witness for C7: on 15 sessions with limit 10 the view is records 15 down
to 6; on 3 sessions with limit 10 it is all 3 reversed. -/
theorem show_history_last_reversed_witness :
    ((0 : Int) < 10) ∧
      show_history hist15 10 = hist15.reverse.take (10 : Int).toNat ∧
      show_history hist15 10
        = [mkS 15, mkS 14, mkS 13, mkS 12, mkS 11, mkS 10, mkS 9, mkS 8,
            mkS 7, mkS 6] ∧
      show_history hist3 10 = [mkS 3, mkS 2, mkS 1] :=
  ⟨by decide, show_history_last_reversed hist15 10 (by decide), by decide,
    by decide⟩

/-- C10: on a non-empty log, limit 0 selects the whole log (the Python slice
with index -0 is the whole list) and displays it reversed, not zero records;
a negative limit selects the records from index (-limit) onward, reversed. -/
theorem show_history_nonpositive (l : List Session) (h : l ≠ []) :
    show_history l 0 = l.reverse ∧
      ∀ k : Nat, show_history l (-(k : Int)) = (l.drop k).reverse := by
  have he : ¬ l.isEmpty := by simp [List.isEmpty_iff, h]
  constructor
  · rw [show_history, if_neg he, sliceFromEnd, if_neg (by decide)]
    norm_num
  · intro k
    rw [show_history, if_neg he, sliceFromEnd, if_neg (by omega)]
    rw [neg_neg, Int.toNat_natCast]

/-- Witness for C10 on three concrete sessions. -/
theorem show_history_nonpositive_witness :
    hist3 ≠ [] ∧
      (show_history hist3 0 = hist3.reverse ∧
        ∀ k : Nat, show_history hist3 (-(k : Int)) = (hist3.drop k).reverse) :=
  ⟨by decide, show_history_nonpositive hist3 (by decide)⟩

/-- C6: the today view is exactly the subsequence of records whose date
field equals today's date: it is a sublist of the log (so the original
relative order is preserved), a record is in the view exactly when it is in
the log with a matching date, multiplicities of matching records are
preserved (and non-matching records never appear), and the empty log yields
the empty view. -/
theorem show_today_spec (l : List Session) (d : String) :
    List.Sublist (show_today l d) l ∧
      (∀ s : Session, s ∈ show_today l d ↔ s ∈ l ∧ s.date = d) ∧
      (∀ s : Session, (show_today l d).count s
          = if s.date = d then l.count s else 0) ∧
      show_today ([] : List Session) d = [] := by
  refine ⟨List.filter_sublist l, ?_, ?_, rfl⟩
  · intro s
    simp [show_today, List.mem_filter]
  · intro s
    by_cases hs : s.date = d
    · rw [if_pos hs, show_today]
      exact List.count_filter (by simp [hs])
    · rw [if_neg hs]
      refine List.count_eq_zero.mpr ?_
      simp [show_today, List.mem_filter, hs]

/-- A session list all of whose records are marked completed. -/
abbrev allCompleted (l : List Session) : Prop := ∀ s ∈ l, s.completed = true

/-- The in-memory session lists reachable in a process whose backing file
started as fs0: the list produced by load_sessions at construction, and the
list after any further successful start_session run. -/
inductive ReachableLog (fs0 : FileState) : List Session → Prop where
  | load : ReachableLog fs0 (load_sessions fs0)
  | step (l : List Session) (fs : FileState) (task : String)
      (clock : Nat → Instant) (ans : String) (w : Bool) (r : StartResult) :
      ReachableLog fs0 l → start_session task clock ans w l fs = .ok r →
      ReachableLog fs0 r.sessions

/-- Counterexample to C4: load_sessions performs no validation, so loading a
backing file whose parsed content holds a record with completed false yields
an in-memory log containing that record. -/
theorem load_sessions_allows_uncompleted :
    (⟨"t", "2024-01-01", "09:00:00", 25, false⟩ : Session) ∈
        load_sessions (.content [⟨"t", "2024-01-01", "09:00:00", 25, false⟩]) ∧
      (⟨"t", "2024-01-01", "09:00:00", 25, false⟩ : Session).completed = false :=
  ⟨by decide, rfl⟩

/-- C4 amended: every record the engine itself appends has completed true,
so whenever the loaded backing data contains only completed records (in
particular when the file is absent or corrupt, where the load is empty),
every reachable in-memory log contains only completed records; but the load
path copies the parsed file content verbatim, without validating the
completed field. -/
theorem reachable_all_completed (fs0 : FileState)
    (h : allCompleted (load_sessions fs0)) :
    ∀ l : List Session, ReachableLog fs0 l → allCompleted l := by
  intro l hl
  induction hl with
  | load => exact h
  | step l fs task clock ans w r _ hstep ih =>
    obtain ⟨hs, _⟩ := start_session_ok_shape hstep
    rw [hs]
    intro s hmem
    rcases List.mem_append.mp hmem with hin | hin
    · exact ih s hin
    · rw [List.mem_singleton.mp hin]
      rfl

/-- Witness for C4 amended: starting from an absent file, the log reached
after one completed run contains only completed records. -/
theorem reachable_all_completed_witness :
    allCompleted (load_sessions .absent) ∧
      allCompleted [recordOf "t" cClock] :=
  ⟨by decide,
    reachable_all_completed .absent (by decide) [recordOf "t" cClock]
      (ReachableLog.step [] .absent "t" cClock "n" true
        ⟨[recordOf "t" cClock], .content [recordOf "t" cClock], false⟩
        ReachableLog.load rfl)⟩

/-- Embeds one iteration of the per-day counting loop at lines 272-275:
days[date] = days.get(date, 0) + 1 on a Python dict, which preserves
insertion order; an existing key keeps its position, a new key is appended
at the end. -/
def bumpDay : List (String × Nat) → String → List (String × Nat)
  | [], d => [(d, 1)]
  | (k, v) :: rest, d =>
    if k = d then (k, v + 1) :: rest else (k, v) :: bumpDay rest d

/-- Embeds the insertion-ordered days mapping built at lines 272-275. -/
def daysOf (sessions : List Session) : List (String × Nat) :=
  sessions.foldl (fun acc s => bumpDay acc s.date) []

/-- Embeds the Python call max(days.items(), key of the count) at line 283:
scan in iteration order, replacing the current best only on a strictly
larger count, so the first day with the maximum count wins ties. -/
def maxByCount : List (String × Nat) → Option (String × Nat)
  | [] => none
  | x :: xs => some (xs.foldl (fun best y => if best.2 < y.2 then y else best) x)

/-- Embeds the Python dict read days[day]: the value stored under a key,
zero when the key is missing (the loop only reads keys it stored). -/
def lookup0 (days : List (String × Nat)) (d : String) : Nat :=
  (days.lookup d).getD 0

/-- Embeds Python's comparison of strings, as lists of characters: code-point
lexicographic order, reflexive at equal lists. -/
def lexLe : List Char → List Char → Bool
  | [], _ => true
  | _ :: _, [] => false
  | a :: as, b :: bs =>
    if a.toNat < b.toNat then true
    else if b.toNat < a.toNat then false
    else lexLe as bs

/-- Python's string order as a relation on strings. -/
def pyStrLe (a b : String) : Prop := lexLe a.data b.data = true

instance : DecidableRel pyStrLe := fun a b =>
  inferInstanceAs (Decidable (lexLe a.data b.data = true))

/-- Embeds lines 290-293: sorted(days.keys())[-7:], each day paired with its
stored count.  Python sorted is modelled by insertion sort over Python's
string order; the keys are pairwise distinct, so every correct sort
agrees. -/
def recentDisplay (sessions : List Session) : List (String × Nat) :=
  let days := daysOf sessions
  let srt := List.insertionSort pyStrLe (days.map Prod.fst)
  (srt.drop (srt.length - 7)).map (fun d => (d, lookup0 days d))

/-- The statistics displayed by show_stats (lines 253-293). -/
structure Stats where
  total : Nat
  totalMinutes : Nat
  activeDays : Nat
  average : ℚ
  busiest : Option (String × Nat)
  recent : List (String × Nat)
deriving DecidableEq

/-- Embeds PomodoroTimer.show_stats (lines 253-293): nothing is computed on
an empty log; otherwise the totals, the per-day mapping, the average per
active day, the most productive day, and the recent-activity lines. -/
def show_stats (sessions : List Session) : Option Stats :=
  if sessions.isEmpty then none
  else
    let days := daysOf sessions
    some { total := sessions.length
           totalMinutes := (sessions.map Session.duration).sum
           activeDays := days.length
           average := (sessions.length : ℚ) / (days.length : ℚ)
           busiest := maxByCount days
           recent := recentDisplay sessions }

/-- The number of sessions recorded on a given day. -/
def countOn (sessions : List Session) (d : String) : Nat :=
  (sessions.filter (fun s => s.date == d)).length

/-- Modelled from the spec's words, for comparison with recentDisplay: the
most recent 7 distinct dates present in the log, sorted ascending, each
paired with its session count. -/
def recentActivitySpec (sessions : List Session) : List (String × Nat) :=
  let ds := List.insertionSort pyStrLe (sessions.map Session.date).dedup
  (ds.drop (ds.length - 7)).map (fun d => (d, countOn sessions d))

/-- Updating a day keeps the key list when the key exists, and appends the
new key at the end otherwise. -/
theorem bumpDay_keys (acc : List (String × Nat)) (d : String) :
    (bumpDay acc d).map Prod.fst =
      if d ∈ acc.map Prod.fst then acc.map Prod.fst
      else acc.map Prod.fst ++ [d] := by
  induction acc with
  | nil => simp [bumpDay]
  | cons p rest ih =>
    obtain ⟨k, v⟩ := p
    by_cases hk : k = d
    · subst hk
      simp [bumpDay]
    · simp only [bumpDay, if_neg hk, List.map_cons]
      rw [ih]
      by_cases hd : d ∈ rest.map Prod.fst
      · rw [if_pos hd, if_pos (by simp [hd])]
      · rw [if_neg hd, if_neg (by simp [hd, Ne.symm hk])]
        simp

/-- Updating a day preserves distinctness of the keys. -/
theorem bumpDay_keys_nodup (acc : List (String × Nat)) (d : String)
    (h : (acc.map Prod.fst).Nodup) :
    ((bumpDay acc d).map Prod.fst).Nodup := by
  rw [bumpDay_keys]
  by_cases hd : d ∈ acc.map Prod.fst
  · rw [if_pos hd]
    exact h
  · rw [if_neg hd]
    simp [List.nodup_append, h, hd]

/-- Updating a day raises the stored count of that day by one and leaves
every other count unchanged. -/
theorem bumpDay_lookup0 (acc : List (String × Nat)) (d k : String) :
    lookup0 (bumpDay acc d) k = lookup0 acc k + (if k = d then 1 else 0) := by
  induction acc with
  | nil =>
    by_cases hk : k = d
    · subst hk
      simp [bumpDay, lookup0, List.lookup]
    · have hb : (k == d) = false := by simp [hk]
      simp [bumpDay, lookup0, List.lookup, hb, hk]
  | cons p rest ih =>
    obtain ⟨a, b⟩ := p
    by_cases ha : a = d
    · subst ha
      by_cases hk : k = a
      · subst hk
        simp [bumpDay, lookup0, List.lookup]
      · have hb : (k == a) = false := by simp [hk]
        simp [bumpDay, lookup0, List.lookup, hb, hk]
    · simp only [bumpDay, if_neg ha]
      by_cases hk : k = a
      · subst hk
        simp [lookup0, List.lookup, ha]
      · have hb : (k == a) = false := by simp [hk]
        simp only [lookup0, List.lookup, hb]
        exact ih

/-- A day is a key of the folded mapping exactly when it is a key of the
accumulator or the date of one of the folded sessions. -/
theorem foldl_bump_mem (l : List Session) (k : String) :
    ∀ acc : List (String × Nat),
      (k ∈ (l.foldl (fun a s => bumpDay a s.date) acc).map Prod.fst
        ↔ k ∈ acc.map Prod.fst ∨ k ∈ l.map Session.date) := by
  induction l with
  | nil =>
    intro acc
    simp
  | cons s t ih =>
    intro acc
    simp only [List.foldl_cons, List.map_cons, List.mem_cons]
    rw [ih]
    have hb : k ∈ (bumpDay acc s.date).map Prod.fst
        ↔ k ∈ acc.map Prod.fst ∨ k = s.date := by
      rw [bumpDay_keys]
      by_cases hd : s.date ∈ acc.map Prod.fst
      · rw [if_pos hd]
        constructor
        · exact Or.inl
        · rintro (h | h)
          · exact h
          · exact h ▸ hd
      · rw [if_neg hd]
        simp
    rw [hb]
    tauto

/-- The folded mapping has pairwise distinct keys. -/
theorem foldl_bump_nodup (l : List Session) :
    ∀ acc : List (String × Nat), (acc.map Prod.fst).Nodup →
      ((l.foldl (fun a s => bumpDay a s.date) acc).map Prod.fst).Nodup := by
  induction l with
  | nil =>
    intro acc h
    exact h
  | cons s t ih =>
    intro acc h
    exact ih _ (bumpDay_keys_nodup acc s.date h)

/-- The folded count of a day is the accumulator's count plus the number of
folded sessions on that day. -/
theorem foldl_bump_lookup0 (l : List Session) (k : String) :
    ∀ acc : List (String × Nat),
      lookup0 (l.foldl (fun a s => bumpDay a s.date) acc) k
        = lookup0 acc k + countOn l k := by
  induction l with
  | nil =>
    intro acc
    simp [countOn]
  | cons s t ih =>
    intro acc
    simp only [List.foldl_cons]
    rw [ih, bumpDay_lookup0]
    have hc : countOn (s :: t) k = countOn t k + (if k = s.date then 1 else 0) := by
      simp only [countOn, List.filter_cons]
      by_cases h : s.date = k
      · rw [if_pos (by simp [h]), if_pos h.symm]
        simp [Nat.add_comm]
      · rw [if_neg (by simp [h]), if_neg (fun hh => h hh.symm)]
        simp
    rw [hc]
    omega

/-- The keys of the days mapping are exactly the dates occurring in the
log. -/
theorem daysOf_keys_mem (l : List Session) (k : String) :
    k ∈ (daysOf l).map Prod.fst ↔ k ∈ l.map Session.date := by
  rw [daysOf, foldl_bump_mem]
  simp

/-- The keys of the days mapping are pairwise distinct. -/
theorem daysOf_keys_nodup (l : List Session) :
    ((daysOf l).map Prod.fst).Nodup :=
  foldl_bump_nodup l [] (by simp)

/-- The stored count of a day is the number of sessions on that day. -/
theorem daysOf_lookup0 (l : List Session) (k : String) :
    lookup0 (daysOf l) k = countOn l k := by
  rw [daysOf, foldl_bump_lookup0]
  simp [lookup0]

/-- A pair found by lookup is a member of the association list. -/
theorem lookup_mem :
    ∀ (ps : List (String × Nat)) (a : String) (b : Nat),
      ps.lookup a = some b → (a, b) ∈ ps := by
  intro ps
  induction ps with
  | nil =>
    intro a b h
    cases h
  | cons p rest ih =>
    intro a b h
    obtain ⟨x, y⟩ := p
    by_cases hax : a = x
    · subst hax
      simp only [List.lookup, beq_self_eq_true] at h
      cases h
      exact List.mem_cons_self _ _
    · have hb : (a == x) = false := by simp [hax]
      simp only [List.lookup, hb] at h
      exact List.mem_cons_of_mem _ (ih a b h)

/-- With distinct keys, every member pair is what lookup returns for its
key. -/
theorem lookup_eq_of_mem_nodup :
    ∀ (ps : List (String × Nat)) (a : String) (b : Nat),
      (ps.map Prod.fst).Nodup → (a, b) ∈ ps → ps.lookup a = some b := by
  intro ps
  induction ps with
  | nil =>
    intro a b _ h
    cases h
  | cons p rest ih =>
    intro a b hn hm
    obtain ⟨x, y⟩ := p
    rcases List.mem_cons.mp hm with h | h
    · cases h
      simp [List.lookup]
    · have hx : ¬ a = x := by
        intro hax
        subst hax
        have hk : a ∈ rest.map Prod.fst :=
          List.mem_map_of_mem Prod.fst h
        simp only [List.map_cons, List.nodup_cons] at hn
        exact hn.1 hk
      have hb : (a == x) = false := by simp [hx]
      simp only [List.lookup, hb]
      exact ih a b (by simpa using (List.nodup_cons.mp (by simpa using hn)).2) h

/-- Every key of the association list is hit by lookup. -/
theorem lookup_isSome_of_mem_keys :
    ∀ (ps : List (String × Nat)) (a : String),
      a ∈ ps.map Prod.fst → ∃ b, ps.lookup a = some b := by
  intro ps
  induction ps with
  | nil =>
    intro a h
    simp at h
  | cons p rest ih =>
    intro a h
    obtain ⟨x, y⟩ := p
    by_cases hax : a = x
    · subst hax
      exact ⟨y, by simp [List.lookup]⟩
    · have hb : (a == x) = false := by simp [hax]
      simp only [List.map_cons, List.mem_cons] at h
      rcases h with h | h
      · exact absurd h hax
      · obtain ⟨b, hbv⟩ := ih a h
        exact ⟨b, by simp only [List.lookup, hb]; exact hbv⟩

/-- The scan for the most productive day returns an element of the list it
scanned. -/
theorem foldl_max_mem :
    ∀ (xs : List (String × Nat)) (x : String × Nat),
      xs.foldl (fun best y => if best.2 < y.2 then y else best) x ∈ x :: xs := by
  intro xs
  induction xs with
  | nil =>
    intro x
    simp
  | cons y ys ih =>
    intro x
    simp only [List.foldl_cons]
    rcases List.mem_cons.mp (ih (if x.2 < y.2 then y else x)) with h | h
    · rw [h]
      by_cases hxy : x.2 < y.2 <;> simp [hxy]
    · simp [List.mem_cons, Or.inr (Or.inr h)]

/-- The scan for the most productive day returns a count at least as large
as every scanned count. -/
theorem foldl_max_ge :
    ∀ (xs : List (String × Nat)) (x p : String × Nat), p ∈ x :: xs →
      p.2 ≤ (xs.foldl (fun best y => if best.2 < y.2 then y else best) x).2 := by
  intro xs
  induction xs with
  | nil =>
    intro x p hp
    rw [List.mem_singleton.mp hp]
    exact le_refl _
  | cons y ys ih =>
    intro x p hp
    simp only [List.foldl_cons]
    have hseed : (if x.2 < y.2 then y else x).2
        ≤ ((ys.foldl (fun best y => if best.2 < y.2 then y else best)
            (if x.2 < y.2 then y else x))).2 :=
      ih _ _ (List.mem_cons_self _ _)
    rcases List.mem_cons.mp hp with h | h
    · subst h
      refine le_trans ?_ hseed
      by_cases hxy : p.2 < y.2
      · rw [if_pos hxy]
        exact le_of_lt hxy
      · rw [if_neg hxy]
    · rcases List.mem_cons.mp h with h2 | h2
      · subst h2
        refine le_trans ?_ hseed
        by_cases hxy : x.2 < p.2
        · rw [if_pos hxy]
        · rw [if_neg hxy]
          exact le_of_not_lt hxy
      · exact ih _ p (List.mem_cons_of_mem _ h2)

/-- One step of the lexicographic comparison: a cons is at most a cons when
the head is smaller, or the heads agree and the tails compare. -/
theorem lexLe_cons_iff (a b : Char) (as bs : List Char) :
    lexLe (a :: as) (b :: bs) = true ↔
      a.toNat < b.toNat ∨ (a.toNat = b.toNat ∧ lexLe as bs = true) := by
  simp only [lexLe]
  by_cases h1 : a.toNat < b.toNat
  · simp [h1]
  · by_cases h2 : b.toNat < a.toNat
    · rw [if_neg h1, if_pos h2]
      constructor
      · intro h
        cases h
      · rintro (h | ⟨h, _⟩) <;> omega
    · have he : a.toNat = b.toNat := by omega
      simp [h1, h2, he]

/-- The lexicographic comparison is total. -/
theorem lexLe_total :
    ∀ xs ys : List Char, lexLe xs ys = true ∨ lexLe ys xs = true := by
  intro xs
  induction xs with
  | nil =>
    intro ys
    exact Or.inl rfl
  | cons a as ih =>
    intro ys
    cases ys with
    | nil => exact Or.inr rfl
    | cons b bs =>
      by_cases h1 : a.toNat < b.toNat
      · exact Or.inl (by simp [lexLe, h1])
      · by_cases h2 : b.toNat < a.toNat
        · exact Or.inr (by simp [lexLe, h2])
        · rcases ih bs with h | h
          · exact Or.inl (by simp [lexLe, h1, h2, h])
          · exact Or.inr (by simp [lexLe, h1, h2, h])

/-- The lexicographic comparison is transitive. -/
theorem lexLe_trans :
    ∀ xs ys zs : List Char, lexLe xs ys = true → lexLe ys zs = true →
      lexLe xs zs = true := by
  intro xs
  induction xs with
  | nil =>
    intro ys zs _ _
    rfl
  | cons a as ih =>
    intro ys zs h1 h2
    cases ys with
    | nil => simp [lexLe] at h1
    | cons b bs =>
      cases zs with
      | nil => simp [lexLe] at h2
      | cons c cs =>
        rw [lexLe_cons_iff] at h1 ⊢
        rw [lexLe_cons_iff] at h2
        rcases h1 with h1 | ⟨h1e, h1r⟩ <;> rcases h2 with h2 | ⟨h2e, h2r⟩
        · exact Or.inl (by omega)
        · exact Or.inl (by omega)
        · exact Or.inl (by omega)
        · exact Or.inr ⟨by omega, ih bs cs h1r h2r⟩

/-- The lexicographic comparison is antisymmetric. -/
theorem lexLe_antisymm :
    ∀ xs ys : List Char, lexLe xs ys = true → lexLe ys xs = true → xs = ys := by
  intro xs
  induction xs with
  | nil =>
    intro ys h1 h2
    cases ys with
    | nil => rfl
    | cons b bs => simp [lexLe] at h2
  | cons a as ih =>
    intro ys h1 h2
    cases ys with
    | nil => simp [lexLe] at h1
    | cons b bs =>
      rw [lexLe_cons_iff] at h1 h2
      have he : a.toNat = b.toNat := by
        rcases h1 with h1 | ⟨h1e, _⟩ <;> rcases h2 with h2 | ⟨h2e, _⟩ <;> omega
      have ha : a = b := Char.ext (UInt32.toNat.inj he)
      rcases h1 with h1 | ⟨_, h1r⟩
      · exact absurd h1 (by omega)
      · rcases h2 with h2 | ⟨_, h2r⟩
        · exact absurd h2 (by omega)
        · rw [ha, ih bs h1r h2r]

instance : IsTotal String pyStrLe :=
  ⟨fun a b => lexLe_total a.data b.data⟩

instance : IsTrans String pyStrLe :=
  ⟨fun a b c => lexLe_trans a.data b.data c.data⟩

instance : IsAntisymm String pyStrLe :=
  ⟨fun a b h1 h2 => by
    cases a
    cases b
    exact congrArg String.mk (lexLe_antisymm _ _ h1 h2)⟩

/-- C8: on a non-empty log the statistics satisfy: total is the number of
records; totalMinutes is the sum of the duration fields; activeDays is the
number of distinct dates; average is total divided by activeDays; the
busiest day is a day of the log achieving the maximum per-day session
count; and the recent-activity view is the most recent 7 distinct dates
sorted ascending, each paired with its count. -/
theorem show_stats_spec (l : List Session) (h : l ≠ []) :
    ∃ st : Stats, show_stats l = some st ∧
      st.total = l.length ∧
      st.totalMinutes = (l.map Session.duration).sum ∧
      st.activeDays = (l.map Session.date).dedup.length ∧
      st.average = (st.total : ℚ) / (st.activeDays : ℚ) ∧
      (∃ d c, st.busiest = some (d, c) ∧ d ∈ l.map Session.date ∧
        c = countOn l d ∧ ∀ d' ∈ l.map Session.date, countOn l d' ≤ c) ∧
      st.recent = recentActivitySpec l := by
  have hne : ¬ l.isEmpty = true := by simp [List.isEmpty_iff, h]
  have hkeysnd := daysOf_keys_nodup l
  have hperm : ((daysOf l).map Prod.fst).Perm ((l.map Session.date).dedup) :=
    (List.perm_ext_iff_of_nodup hkeysnd (List.nodup_dedup _)).mpr
      (fun a => by rw [daysOf_keys_mem, List.mem_dedup])
  have hdne : daysOf l ≠ [] := by
    cases l with
    | nil => exact absurd rfl h
    | cons s t =>
      intro hd
      have hm : s.date ∈ (daysOf (s :: t)).map Prod.fst :=
        (daysOf_keys_mem _ _).mpr (by simp)
      rw [hd] at hm
      simp at hm
  obtain ⟨x, xs, hx⟩ := List.exists_cons_of_ne_nil hdne
  refine ⟨{ total := l.length
            totalMinutes := (l.map Session.duration).sum
            activeDays := (daysOf l).length
            average := (l.length : ℚ) / ((daysOf l).length : ℚ)
            busiest := maxByCount (daysOf l)
            recent := recentDisplay l },
    ?_, rfl, rfl, ?_, rfl, ?_, ?_⟩
  · simp only [show_stats]
    rw [if_neg hne]
  · calc (daysOf l).length
        = ((daysOf l).map Prod.fst).length := (List.length_map _ _).symm
      _ = ((l.map Session.date).dedup).length := hperm.length_eq
  · have hmmem0 : xs.foldl (fun best y => if best.2 < y.2 then y else best) x
        ∈ x :: xs := foldl_max_mem xs x
    set m := xs.foldl (fun best y => if best.2 < y.2 then y else best) x with hm
    have hmmem : m ∈ daysOf l := by
      rw [hx]
      exact hmmem0
    refine ⟨m.1, m.2, ?_, ?_, ?_, ?_⟩
    · rw [hx]
      show some (xs.foldl (fun best y => if best.2 < y.2 then y else best) x)
        = some (m.1, m.2)
      rw [← hm]
    · exact (daysOf_keys_mem l m.1).mp (List.mem_map_of_mem Prod.fst hmmem)
    · have hl : (daysOf l).lookup m.1 = some m.2 :=
        lookup_eq_of_mem_nodup _ _ _ hkeysnd hmmem
      have hv : lookup0 (daysOf l) m.1 = m.2 := by
        rw [lookup0, hl]
        rfl
      rw [← daysOf_lookup0 l m.1, hv]
    · intro d' hd'
      have hk : d' ∈ (daysOf l).map Prod.fst := (daysOf_keys_mem l d').mpr hd'
      obtain ⟨b, hb⟩ := lookup_isSome_of_mem_keys _ _ hk
      have hbmem : (d', b) ∈ x :: xs := by
        rw [← hx]
        exact lookup_mem _ _ _ hb
      have hble : b ≤ m.2 := foldl_max_ge xs x (d', b) hbmem
      have hcount : countOn l d' = b := by
        rw [← daysOf_lookup0, lookup0, hb]
        rfl
      rw [hcount]
      exact hble
  · have hsrt : List.insertionSort pyStrLe ((daysOf l).map Prod.fst)
        = List.insertionSort pyStrLe ((l.map Session.date).dedup) := by
      refine List.eq_of_perm_of_sorted ?_ (List.sorted_insertionSort _ _)
        (List.sorted_insertionSort _ _)
      exact (List.perm_insertionSort _ _).trans
        (hperm.trans (List.perm_insertionSort _ _).symm)
    have hfun : (fun d => (d, lookup0 (daysOf l) d))
        = (fun d => (d, countOn l d)) :=
      funext fun d => by rw [daysOf_lookup0]
    show recentDisplay l = recentActivitySpec l
    simp only [recentDisplay, recentActivitySpec]
    rw [hsrt, hfun]

/-- The spec's worked example: two 25-minute sessions on 2024-01-01 and one
on 2024-01-02. -/
def L8 : List Session :=
  [ { task := "a", date := "2024-01-01", time := "09:00:00",
      duration := 25, completed := true },
    { task := "b", date := "2024-01-01", time := "10:00:00",
      duration := 25, completed := true },
    { task := "c", date := "2024-01-02", time := "09:00:00",
      duration := 25, completed := true } ]

/-- Witness for C8 on the spec's worked example: total 3, totalMinutes 75,
activeDays 2, average 1.5, busiest day 2024-01-01 with count 2, and both
days listed ascending in the recent-activity view. -/
theorem show_stats_spec_witness :
    L8 ≠ [] ∧
      (∃ st : Stats, show_stats L8 = some st ∧
        st.total = L8.length ∧
        st.totalMinutes = (L8.map Session.duration).sum ∧
        st.activeDays = (L8.map Session.date).dedup.length ∧
        st.average = (st.total : ℚ) / (st.activeDays : ℚ) ∧
        (∃ d c, st.busiest = some (d, c) ∧ d ∈ L8.map Session.date ∧
          c = countOn L8 d ∧ ∀ d' ∈ L8.map Session.date, countOn L8 d' ≤ c) ∧
        st.recent = recentActivitySpec L8) ∧
      show_stats L8 = some
        { total := 3, totalMinutes := 75, activeDays := 2,
          average := (3 : ℚ) / 2, busiest := some ("2024-01-01", 2),
          recent := [("2024-01-01", 2), ("2024-01-02", 1)] } :=
  ⟨by decide, show_stats_spec L8 (by decide), by
    rw [show show_stats L8 = some
        { total := 3, totalMinutes := 75, activeDays := 2,
          average := ((3 : Nat) : ℚ) / ((2 : Nat) : ℚ),
          busiest := some ("2024-01-01", 2),
          recent := [("2024-01-01", 2), ("2024-01-02", 1)] } from rfl]
    norm_num⟩

end Pomodoro
